import Mathlib

/-!
# Network path analysis: a verification development

Shallow embedding of the topology-analysis core of `network_path_analysis.py`:
graph construction from a link list, breadth-first all-paths enumeration between
link pairs with a query-global visited set of directed node pairs, midpoint-corrected
path distances, per-pair minimum distances, natural-sorted symmetric distance
matrices, and the paths-file serialization.

Python floats are modelled as rationals (ℚ); Python dicts are modelled as
insertion-ordered association lists; the Python `set` of visited directed node
pairs is modelled as a duplicate-free list used only through membership.
-/

abbrev NodeId := String
abbrev LinkId := String

/-- `NetworkLink` dataclass: a link with its identifier, endpoint nodes and length. -/
structure NetworkLink where
  id : LinkId
  start_node : NodeId
  end_node : NodeId
  length : ℚ
deriving DecidableEq

/-- The identifiers of the loaded links, in load order (keys of `self.links`). -/
def linkIds (links : List NetworkLink) : List LinkId :=
  links.map (fun l => l.id)

/-- Lookup `self.links[i]`.  The loaded link ids are unique (dict keys), so
`find?` returns the entry; on a missing id (where Python would raise `KeyError`,
never reached by the analysis) a dummy link is returned. -/
def linkOf (links : List NetworkLink) (i : LinkId) : NetworkLink :=
  ((links.find? (fun l => l.id = i)).getD ⟨i, "", "", 0⟩)

/-- Length of the link with identifier `i` (`self.links[i].length`). -/
def lengthOf (links : List NetworkLink) (i : LinkId) : ℚ :=
  (linkOf links i).length

/-- `_build_graph`: bidirectional adjacency.  For each link, in load order, an
entry `(end_node, id)` is appended under its start node and an entry
`(start_node, id)` under its end node.  `graph.get(node, [])` is total here. -/
def _build_graph (links : List NetworkLink) (node : NodeId) : List (NodeId × LinkId) :=
  links.foldl (fun acc l =>
    acc ++ (if l.start_node = node then [(l.end_node, l.id)] else [])
        ++ (if l.end_node = node then [(l.start_node, l.id)] else [])) []

/-- The inner `for neighbor, next_link in graph.get(current_node, [])` loop of
`bfs_paths`: starting from the current queue tail and visited set, append an
entry `(neighbor, path + [next_link])` and mark `(current_node, neighbor)`
visited for every admissible adjacent edge, sequentially. -/
def bfsExpand (adj : List (NodeId × LinkId)) (cur : NodeId) (path : List LinkId)
    (qv : List (NodeId × List LinkId) × List (NodeId × NodeId)) :
    List (NodeId × List LinkId) × List (NodeId × NodeId) :=
  adj.foldl (fun qv x =>
    if x.2 ∉ path ∧ (cur, x.1) ∉ qv.2 then
      (qv.1 ++ [(x.1, path ++ [x.2])], (cur, x.1) :: qv.2)
    else qv) qv

/-- The `while queue:` loop of `bfs_paths`, with an explicit fuel argument
bounding the number of iterations (the Python loop has no such argument; its
termination is the content of the termination theorem below). -/
def bfsAux (graph : NodeId → List (NodeId × LinkId)) (end_link : LinkId) :
    Nat → List (NodeId × List LinkId) → List (NodeId × NodeId) → List (List LinkId) →
    Option (List (List LinkId))
  | _, [], _, paths => some paths
  | 0, _ :: _, _, _ => none
  | fuel + 1, (cur, path) :: rest, visited, paths =>
    if path.getLast? = some end_link then
      bfsAux graph end_link fuel rest visited (paths ++ [path])
    else
      let qv := bfsExpand (graph cur) cur path (rest, visited)
      bfsAux graph end_link fuel qv.1 qv.2 paths

/-- All directed node pairs `(u, v)` realized by some link, in either direction.
Every pair ever inserted into the visited set lies in this finite set. -/
def directedPairs (links : List NetworkLink) : Finset (NodeId × NodeId) :=
  (links.flatMap (fun l => [(l.start_node, l.end_node), (l.end_node, l.start_node)])).toFinset

/-- Fuel sufficient for the worklist loop: two seed entries plus twice the
number of directed node pairs (each enqueue past the seeds consumes a pair). -/
def bfsFuel (links : List NetworkLink) : Nat :=
  2 * (directedPairs links).card + 2

/-- `bfs_paths(start_link, end_link)` run with the sufficient fuel: the queue is
seeded with the source link's two endpoint nodes, each carrying the one-element
path `[start_link]`, and the visited set starts empty. -/
def bfsRun (links : List NetworkLink) (start_link end_link : LinkId) :
    Option (List (List LinkId)) :=
  bfsAux (_build_graph links) end_link (bfsFuel links)
    [((linkOf links start_link).start_node, [start_link]),
     ((linkOf links start_link).end_node, [start_link])] [] []

/-- `bfs_paths`: the list of discovered paths, in discovery order. -/
def bfs_paths (links : List NetworkLink) (start_link end_link : LinkId) :
    List (List LinkId) :=
  (bfsRun links start_link end_link).getD []

/-- `itertools.permutations(keys, 2)`: all ordered pairs of distinct link
identifiers, in iteration order (identifiers are unique dict keys, so the
value-based filter coincides with the positional one). -/
def orderedPairs (ids : List LinkId) : List (LinkId × LinkId) :=
  ids.flatMap (fun a => (ids.filter (fun b => b ≠ a)).map (fun b => (a, b)))

/-- `find_all_paths`: the PathSet, an insertion-ordered mapping from each
ordered pair of distinct link ids to the paths found for it. -/
def find_all_paths (links : List NetworkLink) :
    List ((LinkId × LinkId) × List (List LinkId)) :=
  (orderedPairs (linkIds links)).map (fun pr => (pr, bfs_paths links pr.1 pr.2))

/-- `compute_path_distance`: sum of the lengths of the links on the path, minus
half the length of the first link plus half the length of the last link; `0.0`
for the empty path. -/
def compute_path_distance (links : List NetworkLink) (path : List LinkId) : ℚ :=
  if path = [] then 0
  else (path.map (lengthOf links)).sum -
    (lengthOf links (path.headD "") / 2 + lengthOf links (path.getLastD "") / 2)

/-- Modelled from the spec's words (§4.3), for comparison with the code's
`compute_path_distance`: "sum the lengths of all links in the path, then
subtract half the length of the first link and half the length of the last
link"; "Empty path → 0". -/
def path_distance_spec (links : List NetworkLink) (path : List LinkId) : ℚ :=
  if path = [] then 0
  else (path.map (lengthOf links)).sum
    - lengthOf links (path.headD "") / 2
    - lengthOf links (path.getLastD "") / 2

/-- Python `min(distances)` over the distances of a non-empty list of paths;
`none` when the list is empty (the `if paths:` guard). -/
def pathsMin (links : List NetworkLink) : List (List LinkId) → Option ℚ
  | [] => none
  | p :: ps => some ((ps.map (compute_path_distance links)).foldl min (compute_path_distance links p))

/-- `compute_shortest_distances`: the DistanceTable, written in PathSet order,
skipping pairs whose path list is empty. -/
def compute_shortest_distances (links : List NetworkLink)
    (pathset : List ((LinkId × LinkId) × List (List LinkId))) :
    List ((LinkId × LinkId) × ℚ) :=
  pathset.foldl (fun acc kv =>
    match pathsMin links kv.2 with
    | none => acc
    | some d => acc ++ [(kv.1, d)]) []

/-! ## Natural sort (`sorted` with the `re.split('([0-9]+)', x)` key) -/

/-- Maximal runs of characters agreeing on `Char.isDigit`, in order. -/
def charRuns (cs : List Char) : List (List Char) :=
  cs.foldr (fun c acc =>
    match acc with
    | [] => [[c]]
    | r :: rs =>
      match r with
      | [] => [c] :: rs
      | d :: _ => if c.isDigit = d.isDigit then (c :: r) :: rs else [c] :: r :: rs) []

/-- `re.split('([0-9]+)', x)`: the digit runs are captured, so the result
alternates (possibly empty) non-digit pieces at even positions with digit
pieces at odd positions, beginning and ending with a non-digit piece. -/
def reSplitPieces (cs : List Char) : List (List Char) :=
  let rs := charRuns cs
  if rs = [] then [[]]
  else
    let rs1 := if (rs.headD []).any Char.isDigit then [] :: rs else rs
    if (rs1.getLastD []).any Char.isDigit then rs1 ++ [[]] else rs1

/-- One element of the Python sort key list: an `int` for a digit piece, a
lowercased string otherwise. -/
inductive NatKeyElem where
  | str : List Char → NatKeyElem
  | num : Nat → NatKeyElem
deriving DecidableEq

/-- `int(t) if t.isdigit() else t.lower()` for one piece `t`. -/
def pieceVal (p : List Char) : NatKeyElem :=
  if p ≠ [] ∧ p.all Char.isDigit then
    NatKeyElem.num (p.foldl (fun n c => n * 10 + (c.toNat - 48)) 0)
  else NatKeyElem.str (p.map Char.toLower)

/-- The sort key `[int(t) if t.isdigit() else t.lower() for t in re.split('([0-9]+)', x)]`. -/
def natKey (s : String) : List NatKeyElem :=
  (reSplitPieces s.data).map pieceVal

/-- Python `<` on strings: lexicographic on characters, a proper prefix is
smaller. -/
def charListLt : List Char → List Char → Bool
  | _, [] => false
  | [], _ :: _ => true
  | a :: as, b :: bs => if a < b then true else if b < a then false else charListLt as bs

/-- Python `<` on one key element.  In any two keys produced by `natKey`,
elements at equal positions have equal parity and hence the same constructor,
so the two cross-constructor branches are never reached (in Python a
cross-type comparison would raise `TypeError`; it cannot arise here). -/
def keyElemLt : NatKeyElem → NatKeyElem → Bool
  | NatKeyElem.num a, NatKeyElem.num b => a < b
  | NatKeyElem.str a, NatKeyElem.str b => charListLt a b
  | NatKeyElem.num _, NatKeyElem.str _ => true
  | NatKeyElem.str _, NatKeyElem.num _ => false

/-- Python `<` on key lists: lexicographic, a proper prefix is smaller. -/
def keyLt : List NatKeyElem → List NatKeyElem → Bool
  | _, [] => false
  | [], _ :: _ => true
  | a :: as, b :: bs =>
    if keyElemLt a b then true else if keyElemLt b a then false else keyLt as bs

/-- Stable insertion into an already sorted list: the new element goes after
every element not strictly greater than it. -/
def insertBy {α : Type} (lt : α → α → Bool) (x : α) : List α → List α
  | [] => [x]
  | y :: ys => if lt x y then x :: y :: ys else y :: insertBy lt x ys

/-- Stable ascending sort (models Python's stable `sorted`). -/
def sortBy {α : Type} (lt : α → α → Bool) (l : List α) : List α :=
  l.foldl (fun acc x => insertBy lt x acc) []

/-- `sorted(self.links.keys(), key=...)`: the natural sort of the identifiers. -/
def naturalSort (ids : List LinkId) : List LinkId :=
  sortBy (fun a b => keyLt (natKey a) (natKey b)) ids

/-- Plain lexicographic sort of strings, for contrast with the natural sort. -/
def lexSortStrings (ids : List LinkId) : List LinkId :=
  sortBy (fun a b => charListLt a.data b.data) ids

/-! ## Distance matrices -/

/-- `matrix.at[a, b] = d`: pointwise update of one cell. -/
def matWrite {κ : Type} [DecidableEq κ] (m : κ → κ → ℚ) (a b : κ) (d : ℚ) :
    κ → κ → ℚ :=
  fun x y => if x = a ∧ y = b then d else m x y

/-- Fill a zero-initialized matrix from the DistanceTable in insertion order,
writing each distance into both `[a,b]` and `[b,a]` (cells addressed through
`key`, the identity for the id matrix and `id_to_index` for the index matrix). -/
def fillMatrix {κ : Type} [DecidableEq κ] (key : LinkId → κ)
    (dists : List ((LinkId × LinkId) × ℚ)) : κ → κ → ℚ :=
  dists.foldl (fun m kv =>
    matWrite (matWrite m (key kv.1.1) (key kv.1.2) kv.2) (key kv.1.2) (key kv.1.1) kv.2)
    (fun _ _ => 0)

/-- `id_to_index`: position of a link id in the sorted order (enumerate over a
duplicate-free list, so `indexOf` agrees with the Python dict comprehension). -/
def id_to_index (ordered : List LinkId) (x : LinkId) : Nat :=
  List.indexOf x ordered

/-- The two matrices produced by `create_distance_matrices`, together with the
common row/column order (which also yields the index→identifier mapping). -/
structure DistanceMatrices where
  order : List LinkId
  idMat : LinkId → LinkId → ℚ
  idxMat : Nat → Nat → ℚ

/-- `create_distance_matrices`: natural-sort the identifiers, then fill the
identifier-indexed and the index-indexed matrix from the DistanceTable. -/
def create_distance_matrices (links : List NetworkLink)
    (dists : List ((LinkId × LinkId) × ℚ)) : DistanceMatrices :=
  let unique_links := naturalSort (linkIds links)
  { order := unique_links
    idMat := fillMatrix (fun x => x) dists
    idxMat := fillMatrix (id_to_index unique_links) dists }

/-! ## Paths file serialization (`save_paths` / `load_paths`) -/

/-- `f"{key[0]},{key[1]}"`. -/
def joinKey (k : LinkId × LinkId) : String :=
  k.1 ++ "," ++ k.2

/-- `str.split(',')` on the character list: always at least one piece, one
extra piece per comma. -/
def splitAux : List Char → List (List Char)
  | [] => [[]]
  | c :: cs =>
    if c = ',' then [] :: splitAux cs
    else
      match splitAux cs with
      | [] => [[c]]
      | r :: rs => (c :: r) :: rs

/-- `key.split(',')` (the loaded key `tuple(...)` is modelled as the list of
pieces, of whatever arity the split produces). -/
def splitKey (s : String) : List String :=
  (splitAux s.data).map List.asString

/-- Python dict write `d[k] = v`: overwrite in place if the key exists
(keeping its position), else append. -/
def assocUpd {V : Type} (m : List (String × V)) (k : String) (v : V) :
    List (String × V) :=
  if m.any (fun kv => kv.1 = k) then
    m.map (fun kv => if kv.1 = k then (k, v) else kv)
  else m ++ [(k, v)]

/-- `save_paths`: the serialized mapping, keys formed as `"<src>,<dst>"`,
built as a dict comprehension in PathSet order. -/
def save_paths (ps : List ((LinkId × LinkId) × List (List LinkId))) :
    List (String × List (List LinkId)) :=
  ps.foldl (fun m kv => assocUpd m (joinKey kv.1) kv.2) []

/-- `load_paths`: split each stored key on commas; values pass through JSON
unchanged. -/
def load_paths (m : List (String × List (List LinkId))) :
    List (List String × List (List LinkId)) :=
  m.map (fun kv => (splitKey kv.1, kv.2))

/-! ## Invariant and measure definitions used by the proofs -/

/-- Termination measure for the worklist loop: twice the number of directed
node pairs not yet visited, plus the queue length. -/
def bfsMeasure (links : List NetworkLink) (v : List (NodeId × NodeId))
    (q : List (NodeId × List LinkId)) : Nat :=
  2 * ((directedPairs links).filter (fun p => p ∉ v)).card + q.length

/-- Well-formedness of a partial path of a search seeded at `s`: non-empty,
starts at `s`, repeats no link, and uses only loaded link ids. -/
def goodPath (links : List NetworkLink) (s : LinkId) (p : List LinkId) : Prop :=
  p.head? = some s ∧ p.Nodup ∧ ∀ x ∈ p, x ∈ linkIds links

/-- The hop counts of the queued partial paths, in queue order. -/
def qLens (q : List (NodeId × List LinkId)) : List Nat :=
  q.map (fun x => x.2.length)

/-- Level-order invariant of the breadth-first worklist: hop counts of the
recorded paths followed by the queued paths form a non-decreasing chain, and
every queued path is at most one hop longer than the queue front. -/
def lenInv (q : List (NodeId × List LinkId)) (acc : List (List LinkId)) : Prop :=
  List.Pairwise (· ≤ ·) (acc.map List.length ++ qLens q) ∧
  ∀ hd, q.head? = some hd → ∀ x ∈ q, x.2.length ≤ hd.2.length + 1

/-! ## Concrete example networks and path sets -/

/-- The spec's 3-link chain A(10)—B(20)—C(30). -/
def chainLinks : List NetworkLink :=
  [⟨"A", "n1", "n2", 10⟩, ⟨"B", "n2", "n3", 20⟩, ⟨"C", "n3", "n4", 30⟩]

/-- Two links sharing one node. -/
def twoLinks : List NetworkLink :=
  [⟨"A", "n1", "n2", 1⟩, ⟨"B", "n2", "n3", 1⟩]

/-- A network where the pair (A, B) has both a 2-hop and a 4-hop path. -/
def diamondLinks : List NetworkLink :=
  [⟨"A", "n1", "n2", 1⟩, ⟨"B", "n2", "n3", 1⟩, ⟨"C", "n2", "n4", 1⟩, ⟨"D", "n4", "n3", 1⟩]

/-- The spec's natural-sort example identifiers, loaded out of order. -/
def linksL : List NetworkLink :=
  [⟨"L10", "n1", "n2", 1⟩, ⟨"L2", "n2", "n3", 1⟩, ⟨"L1", "n3", "n4", 1⟩]

/-- A link A(2) in series with two parallel links P(4) and Q(6): the
edge-consumed-once search is direction-sensitive here. -/
def links10 : List NetworkLink :=
  [⟨"A", "n1", "n2", 2⟩, ⟨"P", "n2", "n3", 4⟩, ⟨"Q", "n2", "n3", 6⟩]

/-- A PathSet whose source link identifier contains a comma. -/
def psBad : List ((LinkId × LinkId) × List (List LinkId)) :=
  [(("a,b", "c"), [])]

/-- A small comma-free PathSet. -/
def psGood : List ((LinkId × LinkId) × List (List LinkId)) :=
  [(("A", "B"), [["A", "B"]]), (("B", "A"), [["B", "A"]])]

/-! ## Termination of the worklist loop -/

theorem bfsExpand_nil (cur : NodeId) (path : List LinkId) (qv) :
    bfsExpand [] cur path qv = qv := rfl

theorem bfsExpand_cons (x : NodeId × LinkId) (adj : List (NodeId × LinkId))
    (cur : NodeId) (path : List LinkId) (qv) :
    bfsExpand (x :: adj) cur path qv =
      bfsExpand adj cur path
        (if x.2 ∉ path ∧ (cur, x.1) ∉ qv.2 then
          (qv.1 ++ [(x.1, path ++ [x.2])], (cur, x.1) :: qv.2)
        else qv) := rfl

theorem filter_cons_erase (links : List NetworkLink) (v : List (NodeId × NodeId))
    (p : NodeId × NodeId) :
    (directedPairs links).filter (fun x => x ∉ p :: v) =
      ((directedPairs links).filter (fun x => x ∉ v)).erase p := by
  ext x
  simp only [Finset.mem_filter, Finset.mem_erase, List.mem_cons]
  tauto

theorem measure_insert (links : List NetworkLink) (v : List (NodeId × NodeId))
    (p : NodeId × NodeId) (hp : p ∈ directedPairs links) (hv : p ∉ v) :
    ((directedPairs links).filter (fun x => x ∉ p :: v)).card + 1 =
      ((directedPairs links).filter (fun x => x ∉ v)).card := by
  rw [filter_cons_erase]
  rw [Finset.card_erase_of_mem (by simp [Finset.mem_filter, hp, hv])]
  have h1 : 1 ≤ ((directedPairs links).filter (fun x => x ∉ v)).card :=
    Finset.card_pos.mpr ⟨p, by simp [Finset.mem_filter, hp, hv]⟩
  omega

theorem bfsExpand_measure (links : List NetworkLink) (cur : NodeId) (path : List LinkId) :
    ∀ (adj : List (NodeId × LinkId)) (q : List (NodeId × List LinkId))
      (v : List (NodeId × NodeId)),
      (∀ x ∈ adj, (cur, x.1) ∈ directedPairs links) →
      bfsMeasure links (bfsExpand adj cur path (q, v)).2 (bfsExpand adj cur path (q, v)).1 ≤
        bfsMeasure links v q := by
  intro adj
  induction adj with
  | nil => intro q v _; simp [bfsExpand_nil]
  | cons x adj ih =>
    intro q v hadj
    rw [bfsExpand_cons]
    by_cases hc : x.2 ∉ path ∧ (cur, x.1) ∉ v
    · simp only [hc, if_pos]
      refine le_trans (ih _ _ (fun y hy => hadj y (List.mem_cons_of_mem x hy))) ?_
      have := measure_insert links v (cur, x.1) (hadj x (List.mem_cons_self x adj)) hc.2
      simp only [bfsMeasure, List.length_append, List.length_cons, List.length_nil]
      omega
    · simp only [hc, if_neg, if_false]
      · exact ih q v (fun y hy => hadj y (List.mem_cons_of_mem x hy))

theorem mem_build_graph (links : List NetworkLink) (node : NodeId) :
    ∀ x ∈ _build_graph links node,
      (node, x.1) ∈ directedPairs links ∧ x.2 ∈ linkIds links := by
  have key : ∀ (ls : List NetworkLink) (acc : List (NodeId × LinkId)) x,
      x ∈ ls.foldl (fun acc l =>
        acc ++ (if l.start_node = node then [(l.end_node, l.id)] else [])
            ++ (if l.end_node = node then [(l.start_node, l.id)] else [])) acc →
      x ∈ acc ∨ ∃ l ∈ ls,
        (l.start_node = node ∧ x = (l.end_node, l.id)) ∨
        (l.end_node = node ∧ x = (l.start_node, l.id)) := by
    intro ls
    induction ls with
    | nil => intro acc x hx; exact Or.inl hx
    | cons l ls ih =>
      intro acc x hx
      rcases ih _ x hx with h | ⟨l', hl', hcase⟩
      · rcases List.mem_append.mp h with h | h
        · rcases List.mem_append.mp h with h | h
          · exact Or.inl h
          · right
            refine ⟨l, List.mem_cons_self l ls, ?_⟩
            by_cases hs : l.start_node = node
            · simp only [hs, if_pos] at h
              simp only [List.mem_singleton] at h
              exact Or.inl ⟨hs, h⟩
            · simp [hs] at h
        · right
          refine ⟨l, List.mem_cons_self l ls, ?_⟩
          by_cases hs : l.end_node = node
          · simp only [hs, if_pos] at h
            simp only [List.mem_singleton] at h
            exact Or.inr ⟨hs, h⟩
          · simp [hs] at h
      · exact Or.inr ⟨l', List.mem_cons_of_mem l hl', hcase⟩
  intro x hx
  rcases key links [] x (hx) with h | ⟨l, hl, hcase⟩
  · simp at h
  · constructor
    · simp only [directedPairs, List.mem_toFinset, List.mem_flatMap]
      refine ⟨l, hl, ?_⟩
      rcases hcase with ⟨hs, hx⟩ | ⟨hs, hx⟩ <;> subst hx <;> simp [hs]
    · simp only [linkIds, List.mem_map]
      refine ⟨l, hl, ?_⟩
      rcases hcase with ⟨_, hx⟩ | ⟨_, hx⟩ <;> subst hx <;> rfl

theorem bfsAux_isSome (links : List NetworkLink) (e : LinkId) :
    ∀ (fuel : Nat) (q : List (NodeId × List LinkId)) (v : List (NodeId × NodeId))
      (acc : List (List LinkId)),
      bfsMeasure links v q ≤ fuel →
      (bfsAux (_build_graph links) e fuel q v acc).isSome := by
  intro fuel
  induction fuel with
  | zero =>
    intro q v acc hm
    match q with
    | [] => simp [bfsAux]
    | x :: rest => simp [bfsMeasure] at hm
  | succ fuel ih =>
    intro q v acc hm
    match q with
    | [] => simp [bfsAux]
    | (cur, path) :: rest =>
      rw [bfsAux]
      split
      · exact ih rest v _ (by simp [bfsMeasure] at hm ⊢; omega)
      · refine ih _ _ _ ?_
        have h1 := bfsExpand_measure links cur path (_build_graph links cur) rest v
          (fun x hx => (mem_build_graph links cur x hx).1)
        have h2 : bfsMeasure links v rest + 1 ≤ fuel + 1 := by
          simp [bfsMeasure] at hm ⊢; omega
        omega

theorem bfsRun_eq_some (links : List NetworkLink) (s e : LinkId) :
    bfsRun links s e = some (bfs_paths links s e) := by
  have h : (bfsRun links s e).isSome := by
    apply bfsAux_isSome
    simp only [bfsMeasure, bfsFuel, List.length_cons, List.length_nil]
    have : (directedPairs links).filter (fun p => p ∉ ([] : List (NodeId × NodeId))) =
        directedPairs links := by
      apply Finset.filter_true_of_mem
      intro x _
      exact List.not_mem_nil x
    rw [this]
  rw [bfs_paths]
  rcases Option.isSome_iff_exists.mp h with ⟨res, hres⟩
  rw [hres]
  rfl

/-! ## Path well-formedness -/

theorem bfsExpand_queue (cur : NodeId) (path : List LinkId) :
    ∀ (adj : List (NodeId × LinkId)) (q : List (NodeId × List LinkId))
      (v : List (NodeId × NodeId)),
      ∃ extra, (bfsExpand adj cur path (q, v)).1 = q ++ extra ∧
        ∀ x ∈ extra, ∃ nl, (x.1, nl) ∈ adj ∧ nl ∉ path ∧ x.2 = path ++ [nl] := by
  intro adj
  induction adj with
  | nil =>
    intro q v
    exact ⟨[], by simp [bfsExpand_nil], by simp⟩
  | cons y adj ih =>
    intro q v
    rw [bfsExpand_cons]
    by_cases hc : y.2 ∉ path ∧ (cur, y.1) ∉ v
    · simp only [hc, if_pos]
      rcases ih (q ++ [(y.1, path ++ [y.2])]) ((cur, y.1) :: v) with ⟨extra, heq, hext⟩
      refine ⟨(y.1, path ++ [y.2]) :: extra, by simp [heq], ?_⟩
      intro x hx
      rcases List.mem_cons.mp hx with hx | hx
      · subst hx
        exact ⟨y.2, by simp, hc.1, rfl⟩
      · rcases hext x hx with ⟨nl, hnl, h1, h2⟩
        exact ⟨nl, List.mem_cons_of_mem y hnl, h1, h2⟩
    · simp only [hc, if_neg, if_false]
      rcases ih q v with ⟨extra, heq, hext⟩
      refine ⟨extra, heq, ?_⟩
      intro x hx
      rcases hext x hx with ⟨nl, hnl, h1, h2⟩
      exact ⟨nl, List.mem_cons_of_mem y hnl, h1, h2⟩

theorem goodPath_push (links : List NetworkLink) (s : LinkId) (p : List LinkId)
    (nl : LinkId) (hp : goodPath links s p) (hnl : nl ∉ p) (hmem : nl ∈ linkIds links) :
    goodPath links s (p ++ [nl]) := by
  obtain ⟨h1, h2, h3⟩ := hp
  refine ⟨?_, ?_, ?_⟩
  · rw [List.head?_append, h1]; rfl
  · rw [List.nodup_append]
    exact ⟨h2, List.nodup_singleton nl, by intro a ha hb; simp at hb; subst hb; exact hnl ha⟩
  · intro x hx
    rcases List.mem_append.mp hx with hx | hx
    · exact h3 x hx
    · simp at hx; subst hx; exact hmem

theorem bfsAux_good (links : List NetworkLink) (s e : LinkId) :
    ∀ (fuel : Nat) (q : List (NodeId × List LinkId)) (v : List (NodeId × NodeId))
      (acc res : List (List LinkId)),
      (∀ x ∈ q, goodPath links s x.2) →
      (∀ p ∈ acc, goodPath links s p ∧ p.getLast? = some e) →
      bfsAux (_build_graph links) e fuel q v acc = some res →
      ∀ p ∈ res, goodPath links s p ∧ p.getLast? = some e := by
  intro fuel
  induction fuel with
  | zero =>
    intro q v acc res hq hacc hrun
    match q with
    | [] =>
      simp [bfsAux] at hrun
      subst hrun; exact hacc
    | x :: rest => simp [bfsAux] at hrun
  | succ fuel ih =>
    intro q v acc res hq hacc hrun
    match q with
    | [] =>
      simp [bfsAux] at hrun
      subst hrun; exact hacc
    | (cur, path) :: rest =>
      rw [bfsAux] at hrun
      split at hrun
      · rename_i hlast
        refine ih rest v (acc ++ [path]) res ?_ ?_ hrun
        · intro x hx; exact hq x (List.mem_cons_of_mem _ hx)
        · intro p hp
          rcases List.mem_append.mp hp with hp | hp
          · exact hacc p hp
          · simp at hp; subst hp
            exact ⟨hq _ (List.mem_cons_self _ _), hlast⟩
      · refine ih _ _ acc res ?_ hacc hrun
        intro x hx
        rcases bfsExpand_queue cur path (_build_graph links cur) rest v with ⟨extra, heq, hext⟩
        rw [heq] at hx
        rcases List.mem_append.mp hx with hx | hx
        · exact hq x (List.mem_cons_of_mem _ hx)
        · rcases hext x hx with ⟨nl, hnl, h1, h2⟩
          rw [h2]
          exact goodPath_push links s path nl (hq (cur, path) (List.mem_cons_self _ _)) h1
            (mem_build_graph links cur (x.1, nl) hnl).2

theorem mem_orderedPairs (ids : List LinkId) (a b : LinkId) :
    (a, b) ∈ orderedPairs ids ↔ a ∈ ids ∧ b ∈ ids ∧ b ≠ a := by
  simp only [orderedPairs, List.mem_flatMap, List.mem_map, List.mem_filter]
  constructor
  · rintro ⟨x, hx, y, ⟨hy, hne⟩, heq⟩
    simp only [Prod.mk.injEq] at heq
    obtain ⟨rfl, rfl⟩ := heq
    exact ⟨hx, hy, by simpa using hne⟩
  · rintro ⟨ha, hb, hne⟩
    exact ⟨a, ha, b, ⟨hb, by simpa using hne⟩, rfl⟩

theorem find_all_paths_mem (links : List NetworkLink) (pr : LinkId × LinkId)
    (pl : List (List LinkId)) (h : (pr, pl) ∈ find_all_paths links) :
    pr ∈ orderedPairs (linkIds links) ∧ pl = bfs_paths links pr.1 pr.2 := by
  simp only [find_all_paths, List.mem_map] at h
  rcases h with ⟨pr', hpr', heq⟩
  simp only [Prod.mk.injEq] at heq
  obtain ⟨rfl, rfl⟩ := heq
  exact ⟨hpr', rfl⟩

theorem bfs_paths_good (links : List NetworkLink) (s e : LinkId)
    (hs : s ∈ linkIds links) :
    ∀ p ∈ bfs_paths links s e,
      p.head? = some s ∧ p.getLast? = some e ∧ p.Nodup ∧ ∀ x ∈ p, x ∈ linkIds links := by
  intro p hp
  have hrun := bfsRun_eq_some links s e
  have := bfsAux_good links s e (bfsFuel links)
    [((linkOf links s).start_node, [s]), ((linkOf links s).end_node, [s])] [] []
    (bfs_paths links s e)
    (by
      intro x hx
      rcases List.mem_cons.mp hx with hx | hx
      · subst hx; exact ⟨rfl, List.nodup_singleton s, by simpa using hs⟩
      · simp at hx; subst hx; exact ⟨rfl, List.nodup_singleton s, by simpa using hs⟩)
    (by simp)
    hrun p hp
  exact ⟨this.1.1, this.2, this.1.2.1, this.1.2.2⟩

/-! ## Level order -/

theorem pairwise_le_of_all_eq (c : Nat) :
    ∀ (l : List Nat), (∀ x ∈ l, x = c) → List.Pairwise (· ≤ ·) l := by
  intro l
  induction l with
  | nil => intro _; exact List.Pairwise.nil
  | cons a l ih =>
    intro h
    refine List.Pairwise.cons ?_ (ih (fun x hx => h x (List.mem_cons_of_mem a hx)))
    intro b hb
    rw [h a (List.mem_cons_self a l), h b (List.mem_cons_of_mem a hb)]

theorem head?_mem {α : Type} (l : List α) (a : α) (h : l.head? = some a) : a ∈ l := by
  cases l with
  | nil => simp at h
  | cons x l => simp at h; subst h; exact List.mem_cons_self x l

theorem bfsAux_sorted (links : List NetworkLink) (e : LinkId) :
    ∀ (fuel : Nat) (q : List (NodeId × List LinkId)) (v : List (NodeId × NodeId))
      (acc res : List (List LinkId)),
      lenInv q acc →
      bfsAux (_build_graph links) e fuel q v acc = some res →
      List.Pairwise (· ≤ ·) (res.map List.length) := by
  intro fuel
  induction fuel with
  | zero =>
    intro q v acc res hinv hrun
    match q with
    | [] =>
      simp [bfsAux] at hrun
      subst hrun
      simpa [qLens] using hinv.1
    | x :: rest => simp [bfsAux] at hrun
  | succ fuel ih =>
    intro q v acc res hinv hrun
    match q with
    | [] =>
      simp [bfsAux] at hrun
      subst hrun
      simpa [qLens] using hinv.1
    | (cur, path) :: rest =>
      obtain ⟨hpw, hhd⟩ := hinv
      have hq : qLens ((cur, path) :: rest) = path.length :: qLens rest := rfl
      rw [hq] at hpw
      have hqpart : List.Pairwise (· ≤ ·) (path.length :: qLens rest) :=
        ((List.pairwise_append).mp hpw).2.1
      have hpath_le : ∀ x ∈ qLens rest, path.length ≤ x :=
        (List.pairwise_cons.mp hqpart).1
      have hacc_le : ∀ a ∈ acc.map List.length, ∀ b ∈ path.length :: qLens rest, a ≤ b :=
        ((List.pairwise_append).mp hpw).2.2
      rw [bfsAux] at hrun
      split at hrun
      · -- record branch
        refine ih rest v (acc ++ [path]) res ⟨?_, ?_⟩ hrun
        · have heq2 : (acc ++ [path]).map List.length ++ qLens rest =
              acc.map List.length ++ path.length :: qLens rest := by
            simp
          rw [heq2]
          exact hpw
        · intro hd hhd' x hx
          have h1 : x.2.length ≤ path.length + 1 :=
            hhd (cur, path) rfl x (List.mem_cons_of_mem _ hx)
          have h2 : path.length ≤ hd.2.length := by
            apply hpath_le
            simp only [qLens, List.mem_map]
            exact ⟨hd, head?_mem rest hd hhd', rfl⟩
          omega
      · -- expand branch
        rcases bfsExpand_queue cur path (_build_graph links cur) rest v with ⟨extra, heq, hext⟩
        have hextlen : ∀ x ∈ extra, x.2.length = path.length + 1 := by
          intro x hx
          rcases hext x hx with ⟨nl, _, _, h2⟩
          simp [h2]
        refine ih _ _ acc res ⟨?_, ?_⟩ hrun
        · rw [heq]
          have hql : qLens (rest ++ extra) = qLens rest ++ qLens extra := by
            simp [qLens]
          rw [hql, List.pairwise_append]
          refine ⟨((List.pairwise_append).mp hpw).1, ?_, ?_⟩
          · rw [List.pairwise_append]
            refine ⟨(List.pairwise_cons.mp hqpart).2, ?_, ?_⟩
            · apply pairwise_le_of_all_eq (path.length + 1)
              intro x hx
              simp only [qLens, List.mem_map] at hx
              rcases hx with ⟨y, hy, hxy⟩
              rw [← hxy]
              exact hextlen y hy
            · intro a ha b hb
              simp only [qLens, List.mem_map] at ha hb
              rcases ha with ⟨y, hy, hya⟩
              rcases hb with ⟨z, hz, hzb⟩
              have h1 : y.2.length ≤ path.length + 1 :=
                hhd (cur, path) rfl y (List.mem_cons_of_mem _ hy)
              rw [← hya, ← hzb, hextlen z hz]
              exact h1
          · intro a ha b hb
            rcases List.mem_append.mp hb with hb' | hb'
            · exact hacc_le a ha b (List.mem_cons_of_mem _ hb')
            · simp only [qLens, List.mem_map] at hb'
              rcases hb' with ⟨y, hy, hyb⟩
              have h1 : a ≤ path.length := hacc_le a ha path.length (List.mem_cons_self _ _)
              rw [← hyb, hextlen y hy]
              omega
        · intro hd hhd' x hx
          rw [heq] at hhd' hx
          cases rest with
          | nil =>
            simp only [List.nil_append] at hhd' hx
            have h1 := hextlen x hx
            have h2 := hextlen hd (head?_mem extra hd hhd')
            omega
          | cons r rest' =>
            have hhd0 : hd = r := by
              simp only [List.cons_append, List.head?_cons, Option.some.injEq] at hhd'
              exact hhd'.symm
            have hple : path.length ≤ r.2.length := by
              apply hpath_le
              simp only [qLens, List.mem_map]
              exact ⟨r, List.mem_cons_self _ _, rfl⟩
            rw [hhd0]
            rcases List.mem_append.mp hx with hx' | hx'
            · have h1 : x.2.length ≤ path.length + 1 :=
                hhd (cur, path) rfl x (List.mem_cons_of_mem _ hx')
              omega
            · have h1 := hextlen x hx'
              omega

theorem bfs_paths_sorted_lens (links : List NetworkLink) (s e : LinkId) :
    List.Pairwise (· ≤ ·) ((bfs_paths links s e).map List.length) := by
  apply bfsAux_sorted links e (bfsFuel links)
    [((linkOf links s).start_node, [s]), ((linkOf links s).end_node, [s])] [] []
  · constructor
    · simp [qLens]
    · intro hd hhd x hx
      have h1 : (x.2).length = 1 := by
        rcases List.mem_cons.mp hx with hx | hx
        · subst hx; rfl
        · simp at hx; subst hx; rfl
      omega
  · exact bfsRun_eq_some links s e

/-! ## Distance table -/

theorem csd_eq_filterMap (links : List NetworkLink) :
    ∀ (ps : List ((LinkId × LinkId) × List (List LinkId))),
      compute_shortest_distances links ps =
        ps.filterMap (fun kv => (pathsMin links kv.2).map (fun d => (kv.1, d))) := by
  have key : ∀ (ps : List ((LinkId × LinkId) × List (List LinkId)))
      (acc : List ((LinkId × LinkId) × ℚ)),
      ps.foldl (fun acc kv =>
        match pathsMin links kv.2 with
        | none => acc
        | some d => acc ++ [(kv.1, d)]) acc =
      acc ++ ps.filterMap (fun kv => (pathsMin links kv.2).map (fun d => (kv.1, d))) := by
    intro ps
    induction ps with
    | nil => intro acc; simp
    | cons kv ps ih =>
      intro acc
      rw [List.foldl_cons, List.filterMap_cons]
      cases hm : pathsMin links kv.2 with
      | none => simp only [hm]; exact ih acc
      | some d =>
        simp only [hm, Option.map_some]
        rw [ih]
        simp
  intro ps
  exact key ps []

theorem foldl_min_mem {α : Type} [LinearOrder α] :
    ∀ (l : List α) (a : α), l.foldl min a ∈ a :: l := by
  intro l
  induction l with
  | nil => intro a; simp
  | cons b l ih =>
    intro a
    rw [List.foldl_cons]
    rcases List.mem_cons.mp (ih (min a b)) with h | h
    · rcases min_choice a b with hm | hm
      · exact List.mem_cons.mpr (Or.inl (h.trans hm))
      · exact List.mem_cons_of_mem _ (List.mem_cons.mpr (Or.inl (h.trans hm)))
    · exact List.mem_cons_of_mem _ (List.mem_cons_of_mem _ h)

theorem foldl_min_le {α : Type} [LinearOrder α] :
    ∀ (l : List α) (a x : α), x ∈ a :: l → l.foldl min a ≤ x := by
  intro l
  induction l with
  | nil =>
    intro a x hx
    simp at hx
    simp [hx]
  | cons b l ih =>
    intro a x hx
    rw [List.foldl_cons]
    rcases List.mem_cons.mp hx with h | h
    · rw [h]
      exact le_trans (ih (min a b) (min a b) (List.mem_cons_self _ _)) (min_le_left a b)
    · rcases List.mem_cons.mp h with h | h
      · rw [h]
        exact le_trans (ih (min a b) (min a b) (List.mem_cons_self _ _)) (min_le_right a b)
      · exact ih (min a b) x (List.mem_cons_of_mem _ h)

theorem pathsMin_isSome (links : List NetworkLink) (ps : List (List LinkId)) :
    (pathsMin links ps).isSome ↔ ps ≠ [] := by
  cases ps <;> simp [pathsMin]

theorem pathsMin_spec (links : List NetworkLink) (ps : List (List LinkId)) (d : ℚ)
    (h : pathsMin links ps = some d) :
    d ∈ ps.map (compute_path_distance links) ∧
      ∀ p ∈ ps, d ≤ compute_path_distance links p := by
  match ps with
  | [] => simp [pathsMin] at h
  | p :: ps =>
    simp only [pathsMin, Option.some.injEq] at h
    constructor
    · rw [List.map_cons, ← h]
      exact foldl_min_mem _ _
    · intro q hq
      rw [← h]
      rcases List.mem_cons.mp hq with hq | hq
      · subst hq
        exact foldl_min_le _ _ _ (List.mem_cons_self _ _)
      · exact foldl_min_le _ _ _ (List.mem_cons_of_mem _ (List.mem_map_of_mem _ hq))

theorem lookup_eq_none_of_not_mem {β : Type} :
    ∀ (l : List ((LinkId × LinkId) × β)) (pr : LinkId × LinkId),
      pr ∉ l.map Prod.fst → List.lookup pr l = none := by
  intro l
  induction l with
  | nil => intro pr _; rfl
  | cons kv l ih =>
    intro pr hpr
    simp only [List.map_cons, List.mem_cons] at hpr
    push_neg at hpr
    have hbeq : (pr == kv.1) = false := beq_eq_false_iff_ne.mpr hpr.1
    rw [show kv = (kv.1, kv.2) from rfl, List.lookup_cons, hbeq]
    exact ih pr hpr.2

theorem csd_keys_sub (links : List NetworkLink)
    (ps : List ((LinkId × LinkId) × List (List LinkId))) :
    ∀ kv ∈ compute_shortest_distances links ps, kv.1 ∈ ps.map Prod.fst := by
  intro kv hkv
  rw [csd_eq_filterMap] at hkv
  rcases List.mem_filterMap.mp hkv with ⟨kv', hkv', heq⟩
  cases hm : pathsMin links kv'.2 with
  | none => rw [hm] at heq; exact absurd heq (by simp)
  | some d =>
    rw [hm] at heq
    simp only [Option.map_some', Option.some.injEq] at heq
    subst heq
    exact List.mem_map_of_mem Prod.fst hkv'

theorem csd_cons_none (links : List NetworkLink) (kv : (LinkId × LinkId) × List (List LinkId))
    (ps : List ((LinkId × LinkId) × List (List LinkId)))
    (hm : pathsMin links kv.2 = none) :
    compute_shortest_distances links (kv :: ps) = compute_shortest_distances links ps := by
  rw [csd_eq_filterMap, csd_eq_filterMap, List.filterMap_cons, hm]
  rfl

theorem csd_cons_some (links : List NetworkLink) (kv : (LinkId × LinkId) × List (List LinkId))
    (ps : List ((LinkId × LinkId) × List (List LinkId))) (d : ℚ)
    (hm : pathsMin links kv.2 = some d) :
    compute_shortest_distances links (kv :: ps) =
      (kv.1, d) :: compute_shortest_distances links ps := by
  rw [csd_eq_filterMap, csd_eq_filterMap, List.filterMap_cons, hm]
  rfl

theorem lookup_cons_self {β : Type} (pr : LinkId × LinkId) (v : β)
    (l : List ((LinkId × LinkId) × β)) :
    List.lookup pr ((pr, v) :: l) = some v := by
  rw [List.lookup_cons, beq_iff_eq.mpr rfl]

theorem lookup_cons_ne {β : Type} (pr k : LinkId × LinkId) (v : β)
    (l : List ((LinkId × LinkId) × β)) (hne : pr ≠ k) :
    List.lookup pr ((k, v) :: l) = List.lookup pr l := by
  rw [List.lookup_cons, beq_eq_false_iff_ne.mpr hne]

theorem lookup_csd (links : List NetworkLink) :
    ∀ (ps : List ((LinkId × LinkId) × List (List LinkId))),
      (ps.map Prod.fst).Nodup → ∀ pr,
      List.lookup pr (compute_shortest_distances links ps) =
        (List.lookup pr ps).bind (fun l => pathsMin links l) := by
  intro ps
  induction ps with
  | nil => intro _ pr; rfl
  | cons kv ps ih =>
    rcases kv with ⟨k, pl⟩
    intro hnd pr
    rw [List.map_cons, List.nodup_cons] at hnd
    by_cases hpr : pr = k
    · cases hm : pathsMin links pl with
      | none =>
        have hnot : k ∉ (compute_shortest_distances links ps).map Prod.fst := by
          intro hmem
          rcases List.mem_map.mp hmem with ⟨kv', hkv', heq⟩
          exact hnd.1 (heq ▸ csd_keys_sub links ps kv' hkv')
        rw [csd_cons_none links (k, pl) ps hm, hpr,
          lookup_eq_none_of_not_mem _ _ hnot, lookup_cons_self]
        simp [hm]
      | some d =>
        rw [csd_cons_some links (k, pl) ps d hm, hpr, lookup_cons_self,
          lookup_cons_self]
        simp [hm]
    · rw [lookup_cons_ne pr (k, pl).1 (k, pl).2 ps hpr]
      cases hm : pathsMin links pl with
      | none =>
        rw [csd_cons_none links (k, pl) ps hm]
        exact ih hnd.2 pr
      | some d =>
        rw [csd_cons_some links (k, pl) ps d hm,
          lookup_cons_ne pr (k, pl).1 d _ hpr]
        exact ih hnd.2 pr

/-! ## Matrices and sorting -/

theorem fillMatrix_step_symm {κ : Type} [DecidableEq κ] (m : κ → κ → ℚ)
    (k1 k2 : κ) (d : ℚ) (hm : ∀ a b, m a b = m b a) :
    ∀ a b, matWrite (matWrite m k1 k2 d) k2 k1 d a b =
      matWrite (matWrite m k1 k2 d) k2 k1 d b a := by
  intro a b
  simp only [matWrite]
  split_ifs <;> first | rfl | exact hm a b | tauto

theorem fillMatrix_symm {κ : Type} [DecidableEq κ] (key : LinkId → κ) :
    ∀ (l : List ((LinkId × LinkId) × ℚ)) (m : κ → κ → ℚ),
      (∀ a b, m a b = m b a) →
      ∀ a b,
        (l.foldl (fun m kv =>
          matWrite (matWrite m (key kv.1.1) (key kv.1.2) kv.2)
            (key kv.1.2) (key kv.1.1) kv.2) m) a b =
        (l.foldl (fun m kv =>
          matWrite (matWrite m (key kv.1.1) (key kv.1.2) kv.2)
            (key kv.1.2) (key kv.1.1) kv.2) m) b a := by
  intro l
  induction l with
  | nil => intro m hm a b; exact hm a b
  | cons kv l ih =>
    intro m hm a b
    rw [List.foldl_cons]
    exact ih _ (fillMatrix_step_symm m (key kv.1.1) (key kv.1.2) kv.2 hm) a b

theorem fillMatrix_untouched {κ : Type} [DecidableEq κ] (key : LinkId → κ) :
    ∀ (l : List ((LinkId × LinkId) × ℚ)) (m : κ → κ → ℚ) (a b : κ),
      (∀ kv ∈ l, ¬(a = key kv.1.1 ∧ b = key kv.1.2) ∧
        ¬(a = key kv.1.2 ∧ b = key kv.1.1)) →
      (l.foldl (fun m kv =>
        matWrite (matWrite m (key kv.1.1) (key kv.1.2) kv.2)
          (key kv.1.2) (key kv.1.1) kv.2) m) a b = m a b := by
  intro l
  induction l with
  | nil => intro m a b _; rfl
  | cons kv l ih =>
    intro m a b h
    rw [List.foldl_cons]
    rw [ih _ a b (fun kv' hkv' => h kv' (List.mem_cons_of_mem _ hkv'))]
    have h1 := h kv (List.mem_cons_self _ _)
    simp only [matWrite]
    rw [if_neg h1.2, if_neg h1.1]

theorem indexOf_ne_of_ne (ordered : List LinkId)
    (a b : LinkId) (ha : a ∈ ordered) (hb : b ∈ ordered) (hne : a ≠ b) :
    List.indexOf a ordered ≠ List.indexOf b ordered := by
  intro heq
  have hla : List.indexOf a ordered < ordered.length := List.indexOf_lt_length.mpr ha
  have hlb : List.indexOf b ordered < ordered.length := List.indexOf_lt_length.mpr hb
  have h1 : ordered.get ⟨List.indexOf a ordered, hla⟩ = a := List.indexOf_get hla
  have h2 : ordered.get ⟨List.indexOf b ordered, hlb⟩ = b := List.indexOf_get hlb
  apply hne
  rw [← h1, ← h2]
  congr 1
  exact Fin.ext heq

theorem insertBy_perm {α : Type} (lt : α → α → Bool) (x : α) :
    ∀ l : List α, (insertBy lt x l).Perm (x :: l) := by
  intro l
  induction l with
  | nil => exact List.Perm.refl _
  | cons y ys ih =>
    rw [insertBy]
    split
    · exact List.Perm.refl _
    · exact (List.Perm.cons y ih).trans (List.Perm.swap x y ys)

theorem sortBy_perm {α : Type} (lt : α → α → Bool) (l : List α) :
    (sortBy lt l).Perm l := by
  have key : ∀ (l acc : List α),
      (l.foldl (fun acc x => insertBy lt x acc) acc).Perm (acc ++ l) := by
    intro l
    induction l with
    | nil => intro acc; simp
    | cons x xs ih =>
      intro acc
      rw [List.foldl_cons]
      refine ((ih (insertBy lt x acc)).trans ?_)
      refine (((insertBy_perm lt x acc).append_right xs).trans ?_)
      exact List.perm_middle.symm
  simpa using key l []

theorem naturalSort_perm (ids : List LinkId) : (naturalSort ids).Perm ids :=
  sortBy_perm _ ids

theorem mem_naturalSort (ids : List LinkId) (a : LinkId) :
    a ∈ naturalSort ids ↔ a ∈ ids :=
  (naturalSort_perm ids).mem_iff

theorem nodup_naturalSort (ids : List LinkId) (h : ids.Nodup) :
    (naturalSort ids).Nodup :=
  (naturalSort_perm ids).nodup_iff.mpr h

theorem find_all_paths_keys (links : List NetworkLink) :
    (find_all_paths links).map Prod.fst = orderedPairs (linkIds links) := by
  rw [find_all_paths, List.map_map]
  exact List.map_id (orderedPairs (linkIds links))

theorem pipeline_dists_key (links : List NetworkLink)
    (kv : (LinkId × LinkId) × ℚ)
    (hkv : kv ∈ compute_shortest_distances links (find_all_paths links)) :
    kv.1.1 ∈ linkIds links ∧ kv.1.2 ∈ linkIds links ∧ kv.1.2 ≠ kv.1.1 := by
  have h1 := csd_keys_sub links (find_all_paths links) kv hkv
  rw [find_all_paths_keys] at h1
  have h2 := (mem_orderedPairs (linkIds links) kv.1.1 kv.1.2).mp (by
    rw [show (kv.1.1, kv.1.2) = kv.1 from rfl]
    exact h1)
  exact h2

/-! ## Serialization -/

theorem splitAux_no_comma : ∀ (cs : List Char), ',' ∉ cs → splitAux cs = [cs] := by
  intro cs
  induction cs with
  | nil => intro _; rfl
  | cons c cs ih =>
    intro h
    have hc : ¬(c = ',') := fun hc => h (hc ▸ List.mem_cons_self c cs)
    rw [splitAux, if_neg hc, ih (fun hm => h (List.mem_cons_of_mem c hm))]

theorem splitAux_append : ∀ (a b : List Char), ',' ∉ a →
    splitAux (a ++ ',' :: b) = a :: splitAux b := by
  intro a
  induction a with
  | nil =>
    intro b _
    rw [List.nil_append, splitAux, if_pos rfl]
  | cons c a ih =>
    intro b h
    have hc : ¬(c = ',') := fun hc => h (hc ▸ List.mem_cons_self c a)
    rw [List.cons_append, splitAux, if_neg hc,
      ih b (fun hm => h (List.mem_cons_of_mem c hm))]

theorem asString_data (s : String) : (s.data).asString = s := by
  cases s
  rfl

theorem joinKey_data (a b : String) :
    (joinKey (a, b)).data = a.data ++ ',' :: b.data := by
  rw [joinKey]
  rw [show ((a ++ "," ++ b : String)) = (a ++ ("," ++ b) : String) by
    rw [String.append_assoc]]
  rw [String.data_append, String.data_append]
  rfl

theorem splitKey_joinKey (a b : String) (ha : ',' ∉ a.data) (hb : ',' ∉ b.data) :
    splitKey (joinKey (a, b)) = [a, b] := by
  rw [splitKey, joinKey_data, splitAux_append a.data b.data ha,
    splitAux_no_comma b.data hb]
  simp [asString_data]

theorem joinKey_inj (k k' : LinkId × LinkId)
    (h1 : ',' ∉ k.1.data) (h2 : ',' ∉ k.2.data)
    (h1' : ',' ∉ k'.1.data) (h2' : ',' ∉ k'.2.data)
    (heq : joinKey k = joinKey k') : k = k' := by
  have := splitKey_joinKey k.1 k.2 h1 h2
  rw [show (k.1, k.2) = k from rfl] at this
  have that := splitKey_joinKey k'.1 k'.2 h1' h2'
  rw [show (k'.1, k'.2) = k' from rfl] at that
  rw [heq, that] at this
  simp only [List.cons.injEq, and_true] at this
  exact Prod.ext this.1.symm this.2.symm

theorem save_paths_eq_map (ps : List ((LinkId × LinkId) × List (List LinkId)))
    (hnd : (ps.map (fun kv => joinKey kv.1)).Nodup) :
    save_paths ps = ps.map (fun kv => (joinKey kv.1, kv.2)) := by
  have key : ∀ (l : List ((LinkId × LinkId) × List (List LinkId)))
      (acc : List (String × List (List LinkId))),
      (l.map (fun kv => joinKey kv.1)).Nodup →
      (∀ kv ∈ l, ∀ e ∈ acc, e.1 ≠ joinKey kv.1) →
      l.foldl (fun m kv => assocUpd m (joinKey kv.1) kv.2) acc =
        acc ++ l.map (fun kv => (joinKey kv.1, kv.2)) := by
    intro l
    induction l with
    | nil => intro acc _ _; simp
    | cons kv l ih =>
      intro acc hnd hdisj
      rw [List.map_cons, List.nodup_cons] at hnd
      rw [List.foldl_cons]
      have hany : acc.any (fun e => e.1 = joinKey kv.1) = false := by
        rw [List.any_eq_false]
        intro e he
        simpa using hdisj kv (List.mem_cons_self _ _) e he
      rw [show assocUpd acc (joinKey kv.1) kv.2 = acc ++ [(joinKey kv.1, kv.2)] by
        rw [assocUpd, hany]
        simp]
      rw [ih (acc ++ [(joinKey kv.1, kv.2)]) hnd.2 ?_]
      · simp
      · intro kv' hkv' e he
        rcases List.mem_append.mp he with he | he
        · exact hdisj kv' (List.mem_cons_of_mem _ hkv') e he
        · simp only [List.mem_singleton] at he
          subst he
          intro hcontra
          have hcontra2 : joinKey kv.1 = joinKey kv'.1 := hcontra
          apply hnd.1
          rw [hcontra2]
          exact List.mem_map_of_mem _ hkv'
  rw [save_paths]
  exact key ps [] hnd (by intro kv _ e he; simp at he)

theorem round_trip_no_comma (ps : List ((LinkId × LinkId) × List (List LinkId)))
    (hnd : (ps.map Prod.fst).Nodup)
    (hc : ∀ kv ∈ ps, ',' ∉ kv.1.1.data ∧ ',' ∉ kv.1.2.data) :
    load_paths (save_paths ps) = ps.map (fun kv => ([kv.1.1, kv.1.2], kv.2)) := by
  have hjnd : (ps.map (fun kv => joinKey kv.1)).Nodup := by
    have : ps.map (fun kv => joinKey kv.1) = (ps.map Prod.fst).map joinKey := by
      rw [List.map_map]
      rfl
    rw [this]
    refine List.Nodup.map_on ?_ hnd
    intro x hx y hy hxy
    rcases List.mem_map.mp hx with ⟨kvx, hkvx, rfl⟩
    rcases List.mem_map.mp hy with ⟨kvy, hkvy, rfl⟩
    exact joinKey_inj _ _ (hc kvx hkvx).1 (hc kvx hkvx).2 (hc kvy hkvy).1 (hc kvy hkvy).2 hxy
  rw [save_paths_eq_map ps hjnd, load_paths, List.map_map]
  refine List.map_congr_left ?_
  intro kv hkv
  have h2 : splitKey (joinKey kv.1) = [kv.1.1, kv.1.2] := by
    have h3 := splitKey_joinKey kv.1.1 kv.1.2 (hc kv hkv).1 (hc kv hkv).2
    rw [show ((kv.1.1, kv.1.2) : LinkId × LinkId) = kv.1 from rfl] at h3
    exact h3
  show (splitKey (joinKey kv.1), kv.2) = ([kv.1.1, kv.1.2], kv.2)
  rw [h2]

/-! ## Concrete evaluation of the parallel-links network -/
theorem fap_links10 :
    find_all_paths links10 =
      [(("A", "P"), [["A", "P"]]), (("A", "Q"), [["A", "P", "Q"]]),
       (("P", "A"), [["P", "A"]]), (("P", "Q"), [["P", "Q"], ["P", "Q"]]),
       (("Q", "A"), [["Q", "A"]]), (("Q", "P"), [["Q", "P"], ["Q", "P"]])] := by
  decide

theorem cpd_AP : compute_path_distance links10 ["A", "P"] = 3 := by
  have h1 : lengthOf links10 "A" = 2 := rfl
  have h2 : lengthOf links10 "P" = 4 := rfl
  rw [show compute_path_distance links10 ["A", "P"] =
      (List.map (lengthOf links10) ["A", "P"]).sum -
        (lengthOf links10 "A" / 2 + lengthOf links10 "P" / 2) from by
    rw [compute_path_distance, if_neg (by decide)]
    rfl]
  simp only [List.map_cons, List.map_nil, List.sum_cons, List.sum_nil, h1, h2]
  norm_num

theorem cpd_APQ : compute_path_distance links10 ["A", "P", "Q"] = 8 := by
  have h1 : lengthOf links10 "A" = 2 := rfl
  have h2 : lengthOf links10 "P" = 4 := rfl
  have h3 : lengthOf links10 "Q" = 6 := rfl
  rw [show compute_path_distance links10 ["A", "P", "Q"] =
      (List.map (lengthOf links10) ["A", "P", "Q"]).sum -
        (lengthOf links10 "A" / 2 + lengthOf links10 "Q" / 2) from by
    rw [compute_path_distance, if_neg (by decide)]
    rfl]
  simp only [List.map_cons, List.map_nil, List.sum_cons, List.sum_nil, h1, h2, h3]
  norm_num

theorem cpd_PA : compute_path_distance links10 ["P", "A"] = 3 := by
  have h1 : lengthOf links10 "A" = 2 := rfl
  have h2 : lengthOf links10 "P" = 4 := rfl
  rw [show compute_path_distance links10 ["P", "A"] =
      (List.map (lengthOf links10) ["P", "A"]).sum -
        (lengthOf links10 "P" / 2 + lengthOf links10 "A" / 2) from by
    rw [compute_path_distance, if_neg (by decide)]
    rfl]
  simp only [List.map_cons, List.map_nil, List.sum_cons, List.sum_nil, h1, h2]
  norm_num

theorem cpd_PQ : compute_path_distance links10 ["P", "Q"] = 5 := by
  have h2 : lengthOf links10 "P" = 4 := rfl
  have h3 : lengthOf links10 "Q" = 6 := rfl
  rw [show compute_path_distance links10 ["P", "Q"] =
      (List.map (lengthOf links10) ["P", "Q"]).sum -
        (lengthOf links10 "P" / 2 + lengthOf links10 "Q" / 2) from by
    rw [compute_path_distance, if_neg (by decide)]
    rfl]
  simp only [List.map_cons, List.map_nil, List.sum_cons, List.sum_nil, h2, h3]
  norm_num

theorem cpd_QA : compute_path_distance links10 ["Q", "A"] = 4 := by
  have h1 : lengthOf links10 "A" = 2 := rfl
  have h3 : lengthOf links10 "Q" = 6 := rfl
  rw [show compute_path_distance links10 ["Q", "A"] =
      (List.map (lengthOf links10) ["Q", "A"]).sum -
        (lengthOf links10 "Q" / 2 + lengthOf links10 "A" / 2) from by
    rw [compute_path_distance, if_neg (by decide)]
    rfl]
  simp only [List.map_cons, List.map_nil, List.sum_cons, List.sum_nil, h1, h3]
  norm_num

theorem cpd_QP : compute_path_distance links10 ["Q", "P"] = 5 := by
  have h2 : lengthOf links10 "P" = 4 := rfl
  have h3 : lengthOf links10 "Q" = 6 := rfl
  rw [show compute_path_distance links10 ["Q", "P"] =
      (List.map (lengthOf links10) ["Q", "P"]).sum -
        (lengthOf links10 "Q" / 2 + lengthOf links10 "P" / 2) from by
    rw [compute_path_distance, if_neg (by decide)]
    rfl]
  simp only [List.map_cons, List.map_nil, List.sum_cons, List.sum_nil, h2, h3]
  norm_num

theorem csd_links10 :
    compute_shortest_distances links10 (find_all_paths links10) =
      [(("A", "P"), 3), (("A", "Q"), 8), (("P", "A"), 3),
       (("P", "Q"), 5), (("Q", "A"), 4), (("Q", "P"), 5)] := by
  rw [fap_links10, csd_eq_filterMap]
  simp only [List.filterMap_cons, List.filterMap_nil, pathsMin,
    List.map_cons, List.map_nil, List.foldl_cons, List.foldl_nil, Option.map_some',
    cpd_AP, cpd_APQ, cpd_PA, cpd_PQ, cpd_QA, cpd_QP]
  norm_num


/-! ## The claims -/

/-- Claim C1: the path enumerator terminates for every graph, cyclic ones
included: because each directed node pair is added to the query-global visited
set when its successor is enqueued and never enqueued again, fuel of two seed
entries plus twice the number of directed node pairs suffices, so the worklist
loop always completes and `bfsRun` always returns `some` result. -/
theorem C1_bfs_always_terminates (links : List NetworkLink) (s e : LinkId) :
    (bfsAux (_build_graph links) e (2 * (directedPairs links).card + 2)
      [((linkOf links s).start_node, [s]), ((linkOf links s).end_node, [s])]
      [] []).isSome ∧
    bfsRun links s e = some (bfs_paths links s e) := by
  refine ⟨?_, bfsRun_eq_some links s e⟩
  rw [show (2 * (directedPairs links).card + 2) = bfsFuel links from rfl]
  rw [show (bfsAux (_build_graph links) e (bfsFuel links)
      [((linkOf links s).start_node, [s]), ((linkOf links s).end_node, [s])]
      [] []) = bfsRun links s e from rfl]
  rw [bfsRun_eq_some links s e]
  rfl

/-- Claim C2: every path recorded for an ordered pair of distinct links starts
with the source link id, ends with the target link id, draws all its ids from
the loaded link set, and repeats no id. -/
theorem C2_paths_wellformed (links : List NetworkLink) (s e : LinkId)
    (pl : List (List LinkId)) (hmem : ((s, e), pl) ∈ find_all_paths links) :
    ∀ p ∈ pl, p.head? = some s ∧ p.getLast? = some e ∧ p.Nodup ∧
      ∀ x ∈ p, x ∈ linkIds links := by
  obtain ⟨hpr, rfl⟩ := find_all_paths_mem links (s, e) pl hmem
  exact bfs_paths_good links s e ((mem_orderedPairs (linkIds links) s e).mp hpr).1

/-- Witness for C2 on the two-link network. -/
theorem C2_paths_wellformed_witness :
    ((("A", "B"), [["A", "B"]]) ∈ find_all_paths twoLinks) ∧
    (∀ p ∈ [["A", "B"]], p.head? = some "A" ∧ p.getLast? = some "B" ∧ p.Nodup ∧
      ∀ x ∈ p, x ∈ linkIds twoLinks) :=
  ⟨by decide, C2_paths_wellformed twoLinks "A" "B" [["A", "B"]] (by decide)⟩

/-- Claim C3: `compute_path_distance` equals the spec's formula (sum of all
link lengths minus half the first and half the last), every one-link path has
distance exactly 0, the empty path has distance 0, and the 3-link chain with
lengths 10, 20, 30 has distance 40. -/
theorem C3_path_distance_formula :
    (∀ (links : List NetworkLink) (path : List LinkId),
      compute_path_distance links path = path_distance_spec links path) ∧
    (∀ (links : List NetworkLink) (x : LinkId), compute_path_distance links [x] = 0) ∧
    (∀ links : List NetworkLink, compute_path_distance links [] = 0) ∧
    compute_path_distance chainLinks ["A", "B", "C"] = 40 := by
  refine ⟨?_, ?_, ?_, ?_⟩
  · intro links path
    rw [compute_path_distance, path_distance_spec]
    by_cases h : path = []
    · simp [h]
    · simp only [h, if_neg, if_false]
      ring
  · intro links x
    rw [compute_path_distance, if_neg (by simp)]
    rw [show List.headD [x] "" = x from rfl, show List.getLastD [x] "" = x from rfl]
    simp only [List.map_cons, List.map_nil, List.sum_cons, List.sum_nil]
    ring
  · intro links
    rfl
  · have hA : lengthOf chainLinks "A" = 10 := rfl
    have hB : lengthOf chainLinks "B" = 20 := rfl
    have hC : lengthOf chainLinks "C" = 30 := rfl
    rw [show compute_path_distance chainLinks ["A", "B", "C"] =
        (List.map (lengthOf chainLinks) ["A", "B", "C"]).sum -
          (lengthOf chainLinks "A" / 2 + lengthOf chainLinks "C" / 2) from by
      rw [compute_path_distance, if_neg (by decide)]
      rfl]
    simp only [List.map_cons, List.map_nil, List.sum_cons, List.sum_nil, hA, hB, hC]
    norm_num

/-- Claim C4: over a PathSet with distinct pair keys, the DistanceTable has an
entry for a pair iff that pair's PathSet entry is non-empty, and any present
entry is the minimum of `compute_path_distance` over the entry's paths (it is
attained and is a lower bound); an unreachable pair simply yields no entry. -/
theorem C4_distance_table_min (links : List NetworkLink)
    (pathset : List ((LinkId × LinkId) × List (List LinkId)))
    (hnd : (pathset.map Prod.fst).Nodup) (pr : LinkId × LinkId) :
    ((List.lookup pr (compute_shortest_distances links pathset)).isSome ↔
      ∃ pl, List.lookup pr pathset = some pl ∧ pl ≠ []) ∧
    (∀ d, List.lookup pr (compute_shortest_distances links pathset) = some d →
      ∃ pl, List.lookup pr pathset = some pl ∧
        d ∈ pl.map (compute_path_distance links) ∧
        ∀ p ∈ pl, d ≤ compute_path_distance links p) := by
  constructor
  · rw [lookup_csd links pathset hnd pr]
    cases hl : List.lookup pr pathset with
    | none => simp
    | some pl =>
      simp only [Option.some_bind]
      rw [pathsMin_isSome]
      constructor
      · intro h
        exact ⟨pl, rfl, h⟩
      · rintro ⟨pl', hpl', hne⟩
        injection hpl' with h2
        rw [h2]
        exact hne
  · intro d hd
    rw [lookup_csd links pathset hnd pr] at hd
    cases hl : List.lookup pr pathset with
    | none => rw [hl] at hd; exact absurd hd (by simp)
    | some pl =>
      rw [hl] at hd
      simp only [Option.some_bind] at hd
      exact ⟨pl, rfl, pathsMin_spec links pl d hd⟩

/-- Witness for C4 on the parallel-links network at the pair (A, Q). -/
theorem C4_distance_table_min_witness :
    (((find_all_paths links10).map Prod.fst).Nodup) ∧
    (((List.lookup ("A", "Q")
        (compute_shortest_distances links10 (find_all_paths links10))).isSome ↔
      ∃ pl, List.lookup ("A", "Q") (find_all_paths links10) = some pl ∧ pl ≠ []) ∧
    (∀ d, List.lookup ("A", "Q")
        (compute_shortest_distances links10 (find_all_paths links10)) = some d →
      ∃ pl, List.lookup ("A", "Q") (find_all_paths links10) = some pl ∧
        d ∈ pl.map (compute_path_distance links10) ∧
        ∀ p ∈ pl, d ≤ compute_path_distance links10 p)) :=
  ⟨by decide, C4_distance_table_min links10 (find_all_paths links10) (by decide) ("A", "Q")⟩

/-- Claim C5: both produced matrices are symmetric — the id-indexed matrix
satisfies `matrix[a][b] = matrix[b][a]` for all identifiers and the
index-indexed matrix the same at all integer positions — while diagonal
entries and entries of pairs without a computed distance stay 0. -/
theorem C5_matrices_symmetric (links : List NetworkLink) :
    (∀ a b, (create_distance_matrices links
      (compute_shortest_distances links (find_all_paths links))).idMat a b =
        (create_distance_matrices links
      (compute_shortest_distances links (find_all_paths links))).idMat b a) ∧
    (∀ i j, (create_distance_matrices links
      (compute_shortest_distances links (find_all_paths links))).idxMat i j =
        (create_distance_matrices links
      (compute_shortest_distances links (find_all_paths links))).idxMat j i) ∧
    (∀ a, (create_distance_matrices links
      (compute_shortest_distances links (find_all_paths links))).idMat a a = 0) ∧
    (∀ i, (create_distance_matrices links
      (compute_shortest_distances links (find_all_paths links))).idxMat i i = 0) ∧
    (∀ a b, (∀ kv ∈ compute_shortest_distances links (find_all_paths links),
        kv.1 ≠ (a, b) ∧ kv.1 ≠ (b, a)) →
      (create_distance_matrices links
        (compute_shortest_distances links (find_all_paths links))).idMat a b = 0) := by
  refine ⟨?_, ?_, ?_, ?_, ?_⟩
  · intro a b
    exact fillMatrix_symm (fun x => x)
      (compute_shortest_distances links (find_all_paths links))
      (fun _ _ => 0) (fun _ _ => rfl) a b
  · intro i j
    exact fillMatrix_symm (id_to_index (naturalSort (linkIds links)))
      (compute_shortest_distances links (find_all_paths links))
      (fun _ _ => 0) (fun _ _ => rfl) i j
  · intro a
    refine (fillMatrix_untouched (fun x => x) _ _ a a ?_).trans rfl
    intro kv hkv
    have h := (pipeline_dists_key links kv hkv).2.2
    constructor
    · rintro ⟨h1, h2⟩
      exact h (h2.symm.trans h1)
    · rintro ⟨h1, h2⟩
      exact h (h1.symm.trans h2)
  · intro i
    refine (fillMatrix_untouched (id_to_index (naturalSort (linkIds links)))
      _ _ i i ?_).trans rfl
    intro kv hkv
    obtain ⟨h1, h2, hne⟩ := pipeline_dists_key links kv hkv
    have hidx : id_to_index (naturalSort (linkIds links)) kv.1.1 ≠
        id_to_index (naturalSort (linkIds links)) kv.1.2 :=
      indexOf_ne_of_ne (naturalSort (linkIds links)) kv.1.1 kv.1.2
        ((mem_naturalSort _ _).mpr h1) ((mem_naturalSort _ _).mpr h2)
        (fun hx => hne hx.symm)
    constructor
    · rintro ⟨hx1, hx2⟩
      exact hidx (hx1.symm.trans hx2)
    · rintro ⟨hx1, hx2⟩
      exact hidx (hx2.symm.trans hx1)
  · intro a b hnone
    refine (fillMatrix_untouched (fun x => x) _ _ a b ?_).trans rfl
    intro kv hkv
    have h := hnone kv hkv
    constructor
    · rintro ⟨h1, h2⟩
      exact h.1 (Prod.ext (h1.symm : kv.1.1 = a) (h2.symm : kv.1.2 = b))
    · rintro ⟨h1, h2⟩
      exact h.2 (Prod.ext (h2.symm : kv.1.1 = b) (h1.symm : kv.1.2 = a))

/-- Witness for C5: on the parallel-links network the cell of a pair with no
computed distance is 0, with the premise checked concretely. -/
theorem C5_matrices_symmetric_witness :
    (∀ kv ∈ compute_shortest_distances links10 (find_all_paths links10),
      kv.1 ≠ ("A", "X") ∧ kv.1 ≠ ("X", "A")) ∧
    (create_distance_matrices links10
      (compute_shortest_distances links10 (find_all_paths links10))).idMat "A" "X" = 0 :=
  ⟨by rw [csd_links10]; decide,
   (C5_matrices_symmetric links10).2.2.2.2 "A" "X" (by rw [csd_links10]; decide)⟩

/-- Claim C6: the worklist is strict FIFO, so the recorded paths, in discovery
order, have non-decreasing hop count, while all discovered paths are kept. -/
theorem C6_bfs_level_order (links : List NetworkLink) (s e : LinkId)
    (res : List (List LinkId)) (h : bfsRun links s e = some res) :
    List.Pairwise (· ≤ ·) (res.map List.length) := by
  have hs := bfs_paths_sorted_lens links s e
  rw [bfs_paths, h] at hs
  exact hs

/-- Witness for C6 on the diamond network: both discovered paths are kept, a
2-hop one before a 4-hop one. -/
theorem C6_bfs_level_order_witness :
    bfsRun diamondLinks "A" "B" = some [["A", "B"], ["A", "C", "D", "B"]] ∧
    List.Pairwise (· ≤ ·) ([["A", "B"], ["A", "C", "D", "B"]].map List.length) :=
  ⟨by decide, C6_bfs_level_order diamondLinks "A" "B" _ (by decide)⟩

/-- Claim C7: the matrix rows/columns are the identifiers in natural-sort
order; in particular ["L1", "L2", "L10"] sort as L1, L2, L10, and the plain
lexicographic order would instead give L1, L10, L2. -/
theorem C7_natural_sort_order :
    (∀ (links : List NetworkLink) (dists : List ((LinkId × LinkId) × ℚ)),
      (create_distance_matrices links dists).order = naturalSort (linkIds links)) ∧
    (create_distance_matrices linksL []).order = ["L1", "L2", "L10"] ∧
    naturalSort ["L1", "L2", "L10"] = ["L1", "L2", "L10"] ∧
    lexSortStrings ["L1", "L2", "L10"] = ["L1", "L10", "L2"] :=
  ⟨fun _ _ => rfl, by decide, by decide, by decide⟩

/-- Claim C8: with zero links loaded, the core does not fail: the PathSet and
the DistanceTable are empty and the produced matrices are 0×0. -/
theorem C8_empty_network :
    find_all_paths [] = [] ∧
    compute_shortest_distances [] (find_all_paths []) = [] ∧
    (create_distance_matrices []
      (compute_shortest_distances [] (find_all_paths []))).order = [] ∧
    ((create_distance_matrices []
      (compute_shortest_distances [] (find_all_paths []))).order).length = 0 :=
  ⟨rfl, rfl, rfl, rfl⟩

/-- Counterexample to claim C9 as stated: for the PathSet whose source link id
is "a,b", serializing and parsing back does not return the original mapping —
the stored key "a,b,c" splits into three pieces. -/
theorem C9_round_trip_cex :
    load_paths (save_paths psBad) ≠ psBad.map (fun kv => ([kv.1.1, kv.1.2], kv.2)) := by
  decide

/-- Claim C9 (amended): for every PathSet with distinct pair keys whose link
identifiers contain no comma, serializing to the paths file format and parsing
back yields the identical mapping. -/
theorem C9_round_trip_no_comma (ps : List ((LinkId × LinkId) × List (List LinkId)))
    (hnd : (ps.map Prod.fst).Nodup)
    (hc : ∀ kv ∈ ps, ',' ∉ kv.1.1.data ∧ ',' ∉ kv.1.2.data) :
    load_paths (save_paths ps) = ps.map (fun kv => ([kv.1.1, kv.1.2], kv.2)) :=
  round_trip_no_comma ps hnd hc

/-- Witness for the amended C9 on a small comma-free PathSet. -/
theorem C9_round_trip_no_comma_witness :
    ((psGood.map Prod.fst).Nodup ∧
      ∀ kv ∈ psGood, ',' ∉ kv.1.1.data ∧ ',' ∉ kv.1.2.data) ∧
    load_paths (save_paths psGood) = psGood.map (fun kv => ([kv.1.1, kv.1.2], kv.2)) :=
  ⟨⟨by decide, by decide⟩, C9_round_trip_no_comma psGood (by decide) (by decide)⟩

/-- Claim C10: on the parallel-links network the per-direction minima disagree
— (A, Q) gets 8 (only the detour A, P, Q is found) while (Q, A) gets 4 — and
since (Q, A) is written after (A, Q) in PathSet insertion order, both cells of
each matrix end up at the later value 4, keeping the matrices symmetric. -/
theorem C10_asymmetric_distances :
    List.lookup ("A", "Q")
      (compute_shortest_distances links10 (find_all_paths links10)) = some 8 ∧
    List.lookup ("Q", "A")
      (compute_shortest_distances links10 (find_all_paths links10)) = some 4 ∧
    ((8 : ℚ) ≠ 4) ∧
    (compute_shortest_distances links10 (find_all_paths links10)).map Prod.fst =
      [("A", "P"), ("A", "Q"), ("P", "A"), ("P", "Q"), ("Q", "A"), ("Q", "P")] ∧
    (create_distance_matrices links10
      (compute_shortest_distances links10 (find_all_paths links10))).idMat "A" "Q" = 4 ∧
    (create_distance_matrices links10
      (compute_shortest_distances links10 (find_all_paths links10))).idMat "Q" "A" = 4 ∧
    (create_distance_matrices links10
      (compute_shortest_distances links10 (find_all_paths links10))).idxMat 0 2 = 4 ∧
    (create_distance_matrices links10
      (compute_shortest_distances links10 (find_all_paths links10))).idxMat 2 0 = 4 ∧
    (create_distance_matrices links10
      (compute_shortest_distances links10 (find_all_paths links10))).order = ["A", "P", "Q"] := by
  rw [csd_links10]
  exact ⟨rfl, rfl, by norm_num, by decide, rfl, rfl, rfl, rfl, by decide⟩
